import Mathlib

/-!
# Verification of the MinedMap region decoder and block color compositor

Shallow embedding of the core of the MinedMap repository:
* `src/io/region.rs` — sector table parser, chunk payload reader, region
  stream walker (`parse_header`, `decode_chunk`, `Region::foreach_chunk`);
* `crates/resource/src/block_color.rs` — biome color resolver and block
  color compositor (`color_from_params`, `BiomeExt::{grass_color,
  foliage_color, water_color}`, `needs_biome`, `block_color`).

Modelling conventions:
* `f32` arithmetic is modelled as exact rational arithmetic over `ℚ`;
  float literals are read as their decimal values.
* Machine integers are modelled as `Nat` with an explicit `% 2 ^ 32`
  where `u32` overflow matters (the walker's sector index; Rust release
  builds wrap on overflow).
* Fallible Rust code (`Result`) is modelled with an explicit outcome
  type that also distinguishes panics (slice-indexing aborts, `expect`)
  from recoverable `Err` values.
* The byte source (`Read + Seek`) is modelled as a total byte function
  together with a size; `read_exact` succeeds exactly when the requested
  range lies inside the file, and relative `seek` always succeeds (as it
  does for a `File`, even past end of file).
* The external zlib + NBT decoding chain
  (`ZlibDecoder::read_to_end` followed by `fastnbt::from_bytes`) is an
  external library contract; it is modelled as an opaque parameter
  `parse : Buf → Except String α` consuming the bytes after the format
  tag.
-/

set_option maxRecDepth 100000

namespace MinedMap

/-! ## Outcomes of Rust computations -/

/-- Outcome of running a fallible piece of Rust code: a returned value,
a recoverable `Err` (with its message), or an unrecoverable panic. -/
inductive ROutcome (α : Type) where
  | ok : α → ROutcome α
  | err : String → ROutcome α
  | panic : String → ROutcome α
deriving DecidableEq, Repr

/-! ## Colors and vectors (block_color.rs)

`glam::Vec3` is a 3-component float vector; componentwise operations. -/

/-- Three-component color vector (`glam::Vec3`), components as exact rationals. -/
structure Vec3 where
  x : ℚ
  y : ℚ
  z : ℚ
deriving DecidableEq, Repr

/-- Componentwise vector addition. -/
def vadd (a b : Vec3) : Vec3 := ⟨a.x + b.x, a.y + b.y, a.z + b.z⟩

/-- Componentwise vector multiplication (`Mul<Vec3> for Vec3`). -/
def vmul (a b : Vec3) : Vec3 := ⟨a.x * b.x, a.y * b.y, a.z * b.z⟩

/-- Scalar multiplication. -/
def smul (s : ℚ) (a : Vec3) : Vec3 := ⟨s * a.x, s * a.y, s * a.z⟩

/-- Division of a vector by a scalar. -/
def vdiv (a : Vec3) (s : ℚ) : Vec3 := ⟨a.x / s, a.y / s, a.z / s⟩

/-- Modelled from the spec: an RGB triple with 8-bit channels (the `Color`
type of the resource crate, whose Rust definition is outside the provided
sources). -/
structure Color where
  r : Nat
  g : Nat
  b : Nat
deriving DecidableEq, Repr

/-- Converts an u8 RGB color to a float vector (`color_vec_unscaled`). -/
def color_vec_unscaled (color : Color) : Vec3 :=
  ⟨(color.r : ℚ), (color.g : ℚ), (color.b : ℚ)⟩

/-- Converts an u8 RGB color to a float vector, scaling to 0.0..1.0 (`color_vec`). -/
def color_vec (color : Color) : Vec3 := vdiv (color_vec_unscaled color) 255

/-- Modelled from the spec: the grass color modifier tag of a biome
(`BiomeGrassColorModifier`, defined in the resource crate outside the
provided sources). -/
inductive BiomeGrassColorModifier where
  | DarkForest
  | Swamp
deriving DecidableEq, Repr

/-- Modelled from the spec: a biome record carrying temperature, downfall,
optional explicit override colors for grass/foliage/water and an optional
grass color modifier (the `Biome` struct of the resource crate, outside the
provided sources; `temp()`/`downfall()` accessors are field reads here). -/
structure Biome where
  temp : ℚ
  downfall : ℚ
  grass_color : Option Color
  foliage_color : Option Color
  water_color : Option Color
  grass_color_modifier : Option BiomeGrassColorModifier
deriving DecidableEq, Repr

/-- Rust `f32::clamp` on exact rationals. -/
def rclamp (x lo hi : ℚ) : ℚ := min (max x lo) hi

/-- Helper for grass and foliage colors (`color_from_params`): biome
temperature and downfall are modified based on the depth value before
using them to compute the final color. -/
def color_from_params (colors : Vec3 × Vec3 × Vec3) (biome : Biome) (depth : ℚ) : Vec3 :=
  let temp := rclamp (biome.temp - max ((depth - 64) / 600) 0) 0 1
  let downfall := rclamp biome.downfall 0 1 * temp
  vadd (vadd colors.1 (smul temp colors.2.1)) (smul downfall colors.2.2)

/-- Color matrix extracted from the grass color texture (`GRASS_COLORS`). -/
def GRASS_COLORS : Vec3 × Vec3 × Vec3 :=
  (⟨502/1000, 706/1000, 592/1000⟩,
   ⟨247/1000, 12/1000, -259/1000⟩,
   ⟨-471/1000, 86/1000, -133/1000⟩)

/-- Grass color for the dark forest grass color modifier. -/
def DARK_FOREST_GRASS_COLOR : Vec3 := ⟨157/1000, 204/1000, 39/1000⟩

/-- Grass color in swamp biomes (`SWAMP_GRASS_COLOR`). -/
def SWAMP_GRASS_COLOR : Vec3 := ⟨416/1000, 439/1000, 224/1000⟩

/-- Color matrix extracted from the foliage color texture (`FOLIAGE_COLORS`). -/
def FOLIAGE_COLORS : Vec3 × Vec3 × Vec3 :=
  (⟨376/1000, 631/1000, 482/1000⟩,
   ⟨306/1000, 12/1000, -317/1000⟩,
   ⟨-580/1000, 106/1000, -165/1000⟩)

/-- Default biome water color (`DEFAULT_WATER_COLOR`). -/
def DEFAULT_WATER_COLOR : Vec3 := ⟨247/1000, 463/1000, 894/1000⟩

/-- Returns the grass color of the biome at a given depth
(`BiomeExt::grass_color`). -/
def grass_color (self : Biome) (depth : ℚ) : Vec3 :=
  let regular_color :=
    match self.grass_color with
    | some c => color_vec c
    | none => color_from_params GRASS_COLORS self depth
  match self.grass_color_modifier with
  | some BiomeGrassColorModifier.DarkForest =>
      smul (1/2) (vadd regular_color DARK_FOREST_GRASS_COLOR)
  | some BiomeGrassColorModifier.Swamp => SWAMP_GRASS_COLOR
  | none => regular_color

/-- Returns the foliage color of the biome at a given depth
(`BiomeExt::foliage_color`). -/
def foliage_color (self : Biome) (depth : ℚ) : Vec3 :=
  match self.foliage_color with
  | some c => color_vec c
  | none => color_from_params FOLIAGE_COLORS self depth

/-- Returns the water color of the biome (`BiomeExt::water_color`). -/
def water_color (self : Biome) : Vec3 :=
  match self.water_color with
  | some c => color_vec c
  | none => DEFAULT_WATER_COLOR

/-- Color multiplier for birch leaves (`BIRCH_COLOR`). -/
def BIRCH_COLOR : Vec3 := ⟨502/1000, 655/1000, 333/1000⟩

/-- Color multiplier for spruce leaves (`EVERGREEN_COLOR`). -/
def EVERGREEN_COLOR : Vec3 := ⟨380/1000, 600/1000, 380/1000⟩

/-- Modelled from the spec: a block type is a closed capability set (the
`BlockFlag`s queried by `block_color`: grass, foliage, birch, spruce and
water tint) together with an intrinsic base color; the Rust
`BlockType`/`BlockFlag` definitions live in the resource crate outside the
provided sources. -/
structure BlockType where
  grass : Bool
  foliage : Bool
  birch : Bool
  spruce : Bool
  water : Bool
  color : Color
deriving DecidableEq, Repr

/-- Determines if calling `block_color` for a given block type needs biome
information (`needs_biome`). -/
def needs_biome (block : BlockType) : Bool :=
  block.grass || block.foliage || block.water

/-- One conditional biome-dependent tint step of `block_color`:
`if block.is(flag) { color *= get_biome().f(...) }`. A `none` result models
the `expect` panic of `get_biome` when no biome was passed. -/
def tint (biome : Option Biome) (cond : Bool) (f : Biome → Vec3) (c : Vec3) : Option Vec3 :=
  if cond then Option.map (fun b => vmul c (f b)) biome else some c

/-- One conditional constant tint step of `block_color`:
`if block.is(flag) { color *= K }`. -/
def tintConst (cond : Bool) (k : Vec3) (c : Vec3) : Option Vec3 :=
  if cond then some (vmul c k) else some c

/-- The tint chain of `block_color` before the final elevation shading:
intrinsic color, then grass, foliage, birch, spruce and water multipliers
in source order. -/
def block_color_unshaded (block : BlockType) (biome : Option Biome) (depth : ℚ) :
    Option Vec3 :=
  Option.bind
    (Option.bind
      (Option.bind
        (Option.bind
          (tint biome block.grass (fun b => grass_color b depth)
            (color_vec_unscaled block.color))
          (tint biome block.foliage (fun b => foliage_color b depth)))
        (tintConst block.birch BIRCH_COLOR))
      (tintConst block.spruce EVERGREEN_COLOR))
    (tint biome block.water (fun b => water_color b))

/-- Determines the block color to display for a given block type
(`block_color`): the intrinsic color is multiplied by the applicable
grass/foliage/birch/spruce/water tints in source order and finally scaled
by `0.5 + 0.005 * depth`. A `none` result models the panic of
`biome.expect("needs biome to determine block color")`. -/
def block_color (block : BlockType) (biome : Option Biome) (depth : ℚ) : Option Vec3 :=
  Option.bind
    (Option.bind
      (Option.bind
        (Option.bind
          (Option.bind
            (tint biome block.grass (fun b => grass_color b depth)
              (color_vec_unscaled block.color))
            (tint biome block.foliage (fun b => foliage_color b depth)))
          (tintConst block.birch BIRCH_COLOR))
        (tintConst block.spruce EVERGREEN_COLOR))
      (tint biome block.water (fun b => water_color b)))
    (fun c => some (smul (1/2 + (1/200) * depth) c))

/-! ## Region files (io/region.rs) -/

/-- A fixed sector of a region file is 4096 bytes (`BLOCKSIZE`). -/
def BLOCKSIZE : Nat := 4096

/-- Modelled from the spec: chunks per region side (`CHUNKS_PER_REGION`,
declared in the crate's types module outside the provided sources; the
region grid is 32×32). -/
def CHUNKS_PER_REGION : Nat := 32

/-- A chunk position and reserved sector count from a location table entry
(`ChunkDesc`). -/
structure ChunkDesc where
  x : Nat
  z : Nat
  len : Nat
deriving DecidableEq, Repr

/-- A byte source / byte slice: a total byte function plus a size; only
indices below `size` are meaningful. -/
structure Buf where
  byte : Nat → Nat
  size : Nat

/-- The sub-slice of `b` starting at `start` with length `len`
(`&buf[start..start+len]`). -/
def bufSlice (b : Buf) (start len : Nat) : Buf :=
  ⟨fun i => b.byte (start + i), len⟩

/-- Association-list model of `HashMap<u32, ChunkDesc>`: lookup of a key. -/
def hmLookup : List (Nat × ChunkDesc) → Nat → Option ChunkDesc
  | [], _ => none
  | (k2, v) :: rest, k => if k2 = k then some v else hmLookup rest k

/-- Association-list model of `HashMap::remove`: drop all pairs with the
given key (at most one is present, keys being unduplicated). -/
def hmErase (m : List (Nat × ChunkDesc)) (k : Nat) : List (Nat × ChunkDesc) :=
  m.filter (fun p => p.1 != k)

/-- Association-list model of `HashMap::insert`: replaces any previous
binding of the key. -/
def hmInsert (m : List (Nat × ChunkDesc)) (k : Nat) (v : ChunkDesc) :
    List (Nat × ChunkDesc) :=
  (k, v) :: hmErase m k

/-- The 1024 header slots in on-disk order: `z` major, `x` minor, exactly
the iteration order of the two nested loops of `parse_header`. -/
def slotList : List (Nat × Nat) :=
  (List.range CHUNKS_PER_REGION).flatMap
    (fun z => (List.range CHUNKS_PER_REGION).map (fun x => (x, z)))

/-- Byte index of the 4-byte table entry for slot `(x, z)`:
`4 * (CHUNKS_PER_REGION * z + x)`. -/
def slotBase (s : Nat × Nat) : Nat := 4 * (CHUNKS_PER_REGION * s.2 + s.1)

/-- The 3-byte big-endian sector offset of a slot:
`chunk[0] << 16 | chunk[1] << 8 | chunk[2]`. -/
def slotOffset (hdr : Nat → Nat) (s : Nat × Nat) : Nat :=
  ((hdr (slotBase s)) <<< 16) ||| ((hdr (slotBase s + 1)) <<< 8) ||| hdr (slotBase s + 2)

/-- The `ChunkDesc` recorded for a slot: its position and the 1-byte sector
count `chunk[3]`. -/
def slotDesc (hdr : Nat → Nat) (s : Nat × Nat) : ChunkDesc :=
  ⟨s.1, s.2, hdr (slotBase s + 3)⟩

/-- The loop body of `parse_header` for one slot: skip offset-0 slots,
insert the rest keyed by their offset. -/
def insertSlot (hdr : Nat → Nat) (m : List (Nat × ChunkDesc)) (s : Nat × Nat) :
    List (Nat × ChunkDesc) :=
  if slotOffset hdr s = 0 then m
  else hmInsert m (slotOffset hdr s) (slotDesc hdr s)

/-- The table entry contributed by one slot, if any. -/
def entryOfSlot (hdr : Nat → Nat) (s : Nat × Nat) : Option (Nat × ChunkDesc) :=
  if slotOffset hdr s = 0 then none
  else some (slotOffset hdr s, slotDesc hdr s)

/-- Model of `parse_header`: builds the map from sector offset to chunk descriptor,
iterating the 1024 slots z-major/x-minor, skipping offset-0 entries,
inserting the rest keyed by their offset (later inserts replace earlier
ones on key collision). -/
def parse_header (hdr : Nat → Nat) : List (Nat × ChunkDesc) :=
  slotList.foldl (insertSlot hdr) []

/-- All nonzero entries of the location table in slot order, with no
collision handling: the reference set the spec talks about. -/
def headerEntries (hdr : Nat → Nat) : List (Nat × ChunkDesc) :=
  slotList.filterMap (entryOfSlot hdr)

/-- The 4-byte big-endian length prefix of a chunk payload
(`u32::from_be_bytes`). -/
def be32 (b : Buf) : Nat :=
  ((b.byte 0) <<< 24) ||| ((b.byte 1) <<< 16) ||| ((b.byte 2) <<< 8) ||| b.byte 3

/-- Model of `decode_chunk`: reads the 4-byte length prefix, slices that many bytes,
splits off the 1-byte format tag (which must be 2) and hands the remaining
bytes to the external zlib + NBT decoding chain `parse`.

Panics are faithful to the slice operations of the source:
`buf.split_at(4)` aborts when the buffer holds fewer than 4 bytes,
`&buf[..len]` aborts when `len` exceeds the remaining bytes, and
`buf.split_at(1)` aborts when the declared length is 0. -/
def decode_chunk {α : Type} (parse : Buf → Except String α) (buf : Buf) : ROutcome α :=
  if buf.size < 4 then ROutcome.panic "slice split_at mid > len"
  else
    let len := be32 buf
    if buf.size - 4 < len then ROutcome.panic "slice end index out of range"
    else if len = 0 then ROutcome.panic "slice split_at mid > len"
    else if buf.byte 4 = 2 then
      match parse (bufSlice buf 5 (len - 1)) with
      | Except.ok v => ROutcome.ok v
      | Except.error e => ROutcome.err e
    else ROutcome.err "Unknown chunk format"

/-- The mutable state of `foreach_chunk`'s while loop: the remaining
table, the 32×32 occupancy grid (as the list of marked positions), the
current sector index (`u32`), the reader position in bytes, and the trace
of callback invocations so far. -/
structure WalkSt (α : Type) where
  map : List (Nat × ChunkDesc)
  seen : List (Nat × Nat)
  index : Nat
  pos : Nat
  out : List (Nat × Nat × α)
deriving DecidableEq

/-- Result of one iteration of the walker loop: either a next state, or
loop exit with the callback trace and the final outcome. -/
inductive StepRes (α : Type) where
  | next : WalkSt α → StepRes α
  | done : List (Nat × Nat × α) → ROutcome Unit → StepRes α
deriving DecidableEq

/-- One iteration of `foreach_chunk`'s while loop:
* empty table: the loop exits successfully;
* no table entry at the current index: seek one sector forward (a relative
  `File` seek never fails, even past end of file) and increment the index;
* otherwise remove the entry, mark its position in the occupancy grid
  (duplicate marking is a "Duplicate chunk" error; the grid indexing
  panics for out-of-range positions), read the reserved
  `len * BLOCKSIZE` bytes (an EOF is a "Failed to read chunk data" error),
  decode them, record the callback invocation and advance the index by
  `len`. Index arithmetic wraps like Rust release-build `u32`. -/
def walkStep {α : Type} (parse : Buf → Except String α) (file : Buf) (s : WalkSt α) :
    StepRes α :=
  match s.map with
  | [] => StepRes.done s.out (ROutcome.ok ())
  | _ :: _ =>
    match hmLookup s.map s.index with
    | none =>
        StepRes.next ⟨s.map, s.seen, (s.index + 1) % 2 ^ 32, s.pos + BLOCKSIZE, s.out⟩
    | some d =>
        if CHUNKS_PER_REGION ≤ d.x ∨ CHUNKS_PER_REGION ≤ d.z then
          StepRes.done s.out (ROutcome.panic "index out of bounds")
        else if (d.x, d.z) ∈ s.seen then
          StepRes.done s.out (ROutcome.err "Duplicate chunk")
        else if s.pos + d.len * BLOCKSIZE ≤ file.size then
          match decode_chunk parse (bufSlice file s.pos (d.len * BLOCKSIZE)) with
          | ROutcome.ok t =>
              StepRes.next ⟨hmErase s.map s.index, (d.x, d.z) :: s.seen,
                (s.index + d.len) % 2 ^ 32, s.pos + d.len * BLOCKSIZE,
                s.out ++ [(d.x, d.z, t)]⟩
          | ROutcome.err e => StepRes.done s.out (ROutcome.err e)
          | ROutcome.panic p => StepRes.done s.out (ROutcome.panic p)
        else StepRes.done s.out (ROutcome.err "Failed to read chunk data")

/-- The walker loop, iterated with explicit fuel (the Rust loop is an
unbounded `while`; `none` means the given number of iterations did not
suffice for the loop to exit). Returns the callback invocation trace and
the loop's outcome. -/
def walkLoop {α : Type} (parse : Buf → Except String α) (file : Buf) :
    Nat → WalkSt α → List (Nat × Nat × α) × Option (ROutcome Unit)
  | 0, s => (s.out, none)
  | fuel + 1, s =>
    match walkStep parse file s with
    | StepRes.done out r => (out, some r)
    | StepRes.next s2 => walkLoop parse file fuel s2

/-- Model of `Region::foreach_chunk`: read the 4096-byte header (an EOF is a
"Failed to read region header" error), parse the location table and run
the walker loop from sector index 1 at byte position `BLOCKSIZE`. -/
def foreach_chunk {α : Type} (parse : Buf → Except String α) (file : Buf) (fuel : Nat) :
    List (Nat × Nat × α) × Option (ROutcome Unit) :=
  if file.size < BLOCKSIZE then ([], some (ROutcome.err "Failed to read region header"))
  else walkLoop parse file fuel ⟨parse_header file.byte, [], 1, BLOCKSIZE, []⟩

/-- The position `(x, z)` announced by a callback invocation. -/
def emitPos {α : Type} (p : Nat × Nat × α) : Nat × Nat := (p.1, p.2.1)

/-- The position `(x, z)` of a table entry. -/
def entryPos (e : Nat × ChunkDesc) : Nat × Nat := (e.2.x, e.2.z)

/-- Sorted-layout condition used by the walk lemmas: starting at sector
`index`, each entry's offset is at or after the walker's current sector
(so each entry is reached), advancing past its reserved block. This is
the sorted form of "reserved blocks are non-overlapping". -/
def chainOk : Nat → List (Nat × ChunkDesc) → Bool
  | _, [] => true
  | i, e :: rest => decide (i ≤ e.1) && chainOk (e.1 + e.2.len) rest

/-- Keys strictly ascending along the list (entries sorted by offset,
offsets pairwise distinct). -/
def sortedKeys : List (Nat × ChunkDesc) → Bool
  | [] => true
  | e :: rest => rest.all (fun e2 => decide (e.1 < e2.1)) && sortedKeys rest

/-- Fuel sufficient for the walker loop to consume the given entry list
starting at sector `index`: skips up to each entry, one iteration per
entry, one final empty-table check. -/
def walkFuel : Nat → List (Nat × ChunkDesc) → Nat
  | _, [] => 1
  | i, e :: rest => (e.1 - i) + 1 + walkFuel (e.1 + e.2.len) rest

/-- Bytes of a concrete well-formed region file used by witnesses: slot
(0,0) has offset 2 and sector count 1, slot (1,0) has offset 3 and sector
count 1, all other slots are absent; the payloads at sectors 2 and 3
declare length 1 and carry format tag 2 with no compressed bytes. -/
def exampleBytes : Nat → Nat := fun i =>
  if i = 2 then 2 else if i = 3 then 1 else
  if i = 6 then 3 else if i = 7 then 1 else
  if i = 8195 then 1 else if i = 8196 then 2 else
  if i = 12291 then 1 else if i = 12292 then 2 else 0

/-- The concrete well-formed region file (4 sectors). -/
def exampleFile : Buf := ⟨exampleBytes, 16384⟩

/-- A trivial external zlib + NBT decoder used by witnesses. -/
def parseTriv : Buf → Except String Nat := fun _ => Except.ok 0

/-- Bytes of a malformed region file whose two reserved blocks overlap:
slot (0,0) has offset 2 and sector count 2, slot (1,0) has offset 3
(inside the first chunk's reserved block) and sector count 1; the payload
at sector 2 is well-formed. The walker jumps from sector 2 to sector 4 and
never reaches sector 3 again before its 32-bit index wraps. -/
def overlapBytes : Nat → Nat := fun i =>
  if i = 2 then 2 else if i = 3 then 2 else
  if i = 6 then 3 else if i = 7 then 1 else
  if i = 8195 then 1 else if i = 8196 then 2 else 0

/-- The concrete malformed (overlapping) region file (5 sectors). -/
def overlapFile : Buf := ⟨overlapBytes, 20480⟩

/-- Bytes of a region file with an offset collision: slots (0,0) and (1,0)
both carry offset 2 with sector count 1; the payload at sector 2 is
well-formed. -/
def collideBytes : Nat → Nat := fun i =>
  if i = 2 then 2 else if i = 3 then 1 else
  if i = 6 then 2 else if i = 7 then 1 else
  if i = 8195 then 1 else if i = 8196 then 2 else 0

/-- The concrete offset-collision region file (3 sectors). -/
def collideFile : Buf := ⟨collideBytes, 12288⟩

/-! ## The compositor claims -/

/-- The grass/foliage color ramp as the spec words it: with
`temp = clamp(temperature − max((depth − 64) / 600, 0), 0, 1)` and
`downfall = clamp(downfall, 0, 1) × temp`, the result is
`C0 + temp·C1 + downfall·C2`. Stated separately from the code's
`color_from_params` to compare the two. -/
def rampFormulaSpec (c0 c1 c2 : Vec3) (temperature downfall depth : ℚ) : Vec3 :=
  let tp := rclamp (temperature - max ((depth - 64) / 600) 0) 0 1
  let dp := rclamp downfall 0 1 * tp
  vadd (vadd c0 (smul tp c1)) (smul dp c2)

/-! ## Association list lemmas -/

theorem hmLookup_eq_none_iff (m : List (Nat × ChunkDesc)) (k : Nat) :
    hmLookup m k = none ↔ k ∉ m.map Prod.fst := by
  induction m with
  | nil => simp [hmLookup]
  | cons e rest ih =>
    obtain ⟨k2, v⟩ := e
    by_cases h : k2 = k
    · subst h
      simp [hmLookup]
    · simp only [hmLookup, if_neg h, List.map_cons, List.mem_cons, ih]
      constructor
      · intro hn hor
        rcases hor with h1 | h1
        · exact h h1.symm
        · exact hn h1
      · intro hn hm
        exact hn (Or.inr hm)

theorem hmLookup_mem {m : List (Nat × ChunkDesc)} {k : Nat} {v : ChunkDesc}
    (h : hmLookup m k = some v) : (k, v) ∈ m := by
  induction m with
  | nil => simp [hmLookup] at h
  | cons e rest ih =>
    obtain ⟨k2, v2⟩ := e
    by_cases h2 : k2 = k
    · subst h2
      simp [hmLookup] at h
      simp [h]
    · simp [hmLookup, h2] at h
      exact List.mem_cons_of_mem _ (ih h)

theorem mem_hmLookup {m : List (Nat × ChunkDesc)} {k : Nat} {v : ChunkDesc}
    (hnd : (m.map Prod.fst).Nodup) (h : (k, v) ∈ m) : hmLookup m k = some v := by
  induction m with
  | nil => simp at h
  | cons e rest ih =>
    obtain ⟨k2, v2⟩ := e
    simp only [List.map_cons, List.nodup_cons] at hnd
    rcases List.mem_cons.mp h with h1 | h1
    · obtain ⟨hk, hv⟩ := Prod.mk.injEq .. ▸ h1
      simp [hmLookup, hk.symm, hv]
    · have hk2 : k2 ≠ k := by
        intro he
        exact hnd.1 (he ▸ (List.mem_map_of_mem Prod.fst h1))
      simp [hmLookup, hk2, ih hnd.2 h1]

theorem hmErase_of_not_mem {m : List (Nat × ChunkDesc)} {k : Nat}
    (h : k ∉ m.map Prod.fst) : hmErase m k = m := by
  unfold hmErase
  rw [List.filter_eq_self]
  intro e he
  simp only [bne_iff_ne, ne_eq]
  intro hek
  exact h (hek ▸ List.mem_map_of_mem Prod.fst he)

theorem hmErase_sublist (m : List (Nat × ChunkDesc)) (k : Nat) :
    (hmErase m k).Sublist m := List.filter_sublist m

theorem keys_hmErase_not_mem (m : List (Nat × ChunkDesc)) (k : Nat) :
    k ∉ (hmErase m k).map Prod.fst := by
  intro h
  obtain ⟨e, he, hk⟩ := List.mem_map.mp h
  have := List.of_mem_filter he
  simp [hk] at this

theorem keys_hmInsert_nodup {m : List (Nat × ChunkDesc)} (k : Nat) (v : ChunkDesc)
    (hnd : (m.map Prod.fst).Nodup) : ((hmInsert m k v).map Prod.fst).Nodup := by
  simp only [hmInsert, List.map_cons, List.nodup_cons]
  exact ⟨keys_hmErase_not_mem m k,
    ((hmErase_sublist m k).map Prod.fst).nodup hnd⟩

theorem hmLookup_hmInsert_self (m : List (Nat × ChunkDesc)) (k : Nat) (v : ChunkDesc) :
    hmLookup (hmInsert m k v) k = some v := by
  simp [hmInsert, hmLookup]

theorem hmLookup_filter {p : Nat × ChunkDesc → Bool} (m : List (Nat × ChunkDesc))
    (k : Nat) (hp : ∀ v, p (k, v) = true) :
    hmLookup (m.filter p) k = hmLookup m k := by
  induction m with
  | nil => rfl
  | cons e rest ih =>
    obtain ⟨k3, v3⟩ := e
    by_cases h3 : k3 = k
    · subst h3
      rw [List.filter_cons_of_pos (hp v3)]
      simp [hmLookup]
    · cases hv : p (k3, v3)
      · rw [List.filter_cons_of_neg (by simp [hv])]
        rw [ih]
        simp [hmLookup, h3]
      · rw [List.filter_cons_of_pos hv]
        simp [hmLookup, h3, ih]

theorem hmLookup_hmErase_ne (m : List (Nat × ChunkDesc)) {k k2 : Nat} (h : k2 ≠ k) :
    hmLookup (hmErase m k2) k = hmLookup m k := by
  unfold hmErase
  exact hmLookup_filter m k (fun v => by simp [Ne.symm h])

theorem hmLookup_hmInsert_ne (m : List (Nat × ChunkDesc)) {k k2 : Nat} (v : ChunkDesc)
    (h : k2 ≠ k) : hmLookup (hmInsert m k2 v) k = hmLookup m k := by
  simp only [hmInsert, hmLookup]
  rw [if_neg h, hmLookup_hmErase_ne m h]

/-! ## parse_header characterization -/

theorem foldl_insertSlot_eq (hdr : Nat → Nat) (sl : List (Nat × Nat))
    (m : List (Nat × ChunkDesc))
    (hnd : ((sl.filterMap (entryOfSlot hdr)).map Prod.fst).Nodup)
    (hdisj : ∀ k ∈ (sl.filterMap (entryOfSlot hdr)).map Prod.fst, k ∉ m.map Prod.fst) :
    sl.foldl (insertSlot hdr) m = (sl.filterMap (entryOfSlot hdr)).reverse ++ m := by
  induction sl generalizing m with
  | nil => rfl
  | cons s rest ih =>
    rw [List.foldl_cons, List.filterMap_cons]
    by_cases h : slotOffset hdr s = 0
    · rw [List.filterMap_cons, entryOfSlot, if_pos h] at hnd hdisj
      have hm : insertSlot hdr m s = m := by rw [insertSlot, if_pos h]
      rw [hm, entryOfSlot, if_pos h]
      exact ih m hnd hdisj
    · rw [List.filterMap_cons, entryOfSlot, if_neg h, List.map_cons,
        List.nodup_cons] at hnd
      have hd2 := hdisj
      rw [List.filterMap_cons, entryOfSlot, if_neg h, List.map_cons] at hd2
      have hk : slotOffset hdr s ∉ m.map Prod.fst := hd2 _ (List.mem_cons_self _ _)
      have hm : insertSlot hdr m s
          = (slotOffset hdr s, slotDesc hdr s) :: m := by
        rw [insertSlot, if_neg h, hmInsert, hmErase_of_not_mem hk]
      rw [hm, entryOfSlot, if_neg h, List.reverse_cons, List.append_assoc]
      refine ih _ hnd.2 ?_
      intro k hks
      simp only [List.map_cons, List.mem_cons]
      intro hor
      rcases hor with h1 | h1
      · exact hnd.1 (h1 ▸ hks)
      · exact hd2 k (List.mem_cons_of_mem _ hks) h1

theorem parse_header_eq_reverse (hdr : Nat → Nat)
    (hnd : ((headerEntries hdr).map Prod.fst).Nodup) :
    parse_header hdr = (headerEntries hdr).reverse := by
  rw [parse_header, foldl_insertSlot_eq hdr slotList [] hnd (by simp)]
  simp [headerEntries]

theorem mem_foldl_insertSlot (hdr : Nat → Nat) (sl : List (Nat × Nat))
    (m : List (Nat × ChunkDesc)) (e : Nat × ChunkDesc)
    (he : e ∈ sl.foldl (insertSlot hdr) m) :
    e ∈ m ∨ e ∈ sl.filterMap (entryOfSlot hdr) := by
  induction sl generalizing m with
  | nil => exact Or.inl he
  | cons s rest ih =>
    rw [List.foldl_cons] at he
    rcases ih (insertSlot hdr m s) he with h1 | h1
    · rw [insertSlot] at h1
      by_cases h : slotOffset hdr s = 0
      · rw [if_pos h] at h1
        exact Or.inl h1
      · rw [if_neg h, hmInsert] at h1
        rcases List.mem_cons.mp h1 with h2 | h2
        · right
          rw [List.filterMap_cons, entryOfSlot, if_neg h]
          exact h2 ▸ List.mem_cons_self _ _
        · exact Or.inl ((hmErase_sublist m _).mem h2)
    · right
      rw [List.filterMap_cons]
      cases hos : entryOfSlot hdr s
      · exact h1
      · exact List.mem_cons_of_mem _ h1

theorem keys_foldl_insertSlot_nodup (hdr : Nat → Nat) (sl : List (Nat × Nat))
    (m : List (Nat × ChunkDesc)) (hnd : (m.map Prod.fst).Nodup) :
    ((sl.foldl (insertSlot hdr) m).map Prod.fst).Nodup := by
  induction sl generalizing m with
  | nil => exact hnd
  | cons s rest ih =>
    rw [List.foldl_cons]
    refine ih _ ?_
    rw [insertSlot]
    by_cases h : slotOffset hdr s = 0
    · rwa [if_pos h]
    · rw [if_neg h]
      exact keys_hmInsert_nodup _ _ hnd

theorem keys_parse_header_nodup (hdr : Nat → Nat) :
    ((parse_header hdr).map Prod.fst).Nodup :=
  keys_foldl_insertSlot_nodup hdr slotList [] List.nodup_nil

theorem hmLookup_foldl_insertSlot_no_key (hdr : Nat → Nat) (sl : List (Nat × Nat))
    (m : List (Nat × ChunkDesc)) (o : Nat)
    (h : ∀ s ∈ sl, slotOffset hdr s ≠ o) :
    hmLookup (sl.foldl (insertSlot hdr) m) o = hmLookup m o := by
  induction sl generalizing m with
  | nil => rfl
  | cons s rest ih =>
    rw [List.foldl_cons, ih _ (fun s2 hs2 => h s2 (List.mem_cons_of_mem _ hs2))]
    rw [insertSlot]
    by_cases h0 : slotOffset hdr s = 0
    · rw [if_pos h0]
    · rw [if_neg h0]
      exact hmLookup_hmInsert_ne m _ (h s (List.mem_cons_self _ _))

theorem length_foldl_insertSlot (hdr : Nat → Nat) (sl : List (Nat × Nat))
    (m : List (Nat × ChunkDesc)) :
    (sl.foldl (insertSlot hdr) m).length ≤ m.length + sl.length := by
  induction sl generalizing m with
  | nil => simp
  | cons s rest ih =>
    rw [List.foldl_cons]
    refine le_trans (ih (insertSlot hdr m s)) ?_
    have : (insertSlot hdr m s).length ≤ m.length + 1 := by
      rw [insertSlot]
      by_cases h : slotOffset hdr s = 0
      · rw [if_pos h]
        omega
      · rw [if_neg h, hmInsert]
        have := (hmErase_sublist m (slotOffset hdr s)).length_le
        simp only [List.length_cons]
        omega
    simp only [List.length_cons]
    omega

theorem entryPos_filterMap_sublist (hdr : Nat → Nat) (sl : List (Nat × Nat)) :
    ((sl.filterMap (entryOfSlot hdr)).map entryPos).Sublist sl := by
  induction sl with
  | nil => simp
  | cons s rest ih =>
    rw [List.filterMap_cons]
    by_cases h : slotOffset hdr s = 0
    · rw [entryOfSlot, if_pos h]
      exact ih.cons s
    · rw [entryOfSlot, if_neg h, List.map_cons]
      exact List.Sublist.cons₂ s ih

theorem slotList_length : slotList.length = 1024 := by
  rw [slotList, List.length_flatMap]
  simp only [Function.comp_def, List.length_map, List.length_range]
  rw [List.map_const']
  simp [List.sum_replicate, CHUNKS_PER_REGION, smul_eq_mul]

theorem slotList_nodup : slotList.Nodup := by
  rw [slotList]
  refine List.nodup_flatMap.mpr ⟨?_, ?_⟩
  · intro z _
    exact (List.nodup_range _).map (fun a b hab => (Prod.mk.injEq .. ▸ hab).1)
  · refine List.Pairwise.imp ?_ (List.pairwise_lt_range _)
    intro a b hab
    simp only [Function.onFun, List.disjoint_left]
    intro p hp hq
    obtain ⟨x, _, hx⟩ := List.mem_map.mp hp
    obtain ⟨y, _, hy⟩ := List.mem_map.mp hq
    rw [← hx] at hy
    have := (Prod.mk.injEq .. ▸ hy).2
    omega

theorem headerEntries_pos_nodup (hdr : Nat → Nat) :
    ((headerEntries hdr).map entryPos).Nodup :=
  (entryPos_filterMap_sublist hdr slotList).nodup slotList_nodup

theorem headerEntries_pos_lt (hdr : Nat → Nat) (e : Nat × ChunkDesc)
    (he : e ∈ headerEntries hdr) :
    e.2.x < CHUNKS_PER_REGION ∧ e.2.z < CHUNKS_PER_REGION := by
  obtain ⟨s, hs, hse⟩ := List.mem_filterMap.mp he
  rw [entryOfSlot] at hse
  by_cases h : slotOffset hdr s = 0
  · rw [if_pos h] at hse
    cases hse
  · rw [if_neg h] at hse
    cases hse
    have hsl : s ∈ slotList := hs
    have : s.1 < CHUNKS_PER_REGION ∧ s.2 < CHUNKS_PER_REGION := by
      rw [slotList] at hsl
      obtain ⟨z, hz, hsx⟩ := List.mem_flatMap.mp hsl
      obtain ⟨x, hx, hxe⟩ := List.mem_map.mp hsx
      cases hxe
      exact ⟨List.mem_range.mp hx, List.mem_range.mp hz⟩
    exact this

theorem headerEntries_length_le (hdr : Nat → Nat) :
    (headerEntries hdr).length ≤ 1024 := by
  rw [headerEntries]
  calc (slotList.filterMap (entryOfSlot hdr)).length
      ≤ slotList.length := List.length_filterMap_le _ _
    _ = 1024 := slotList_length

/-! ## Walker loop lemmas -/

theorem sortedKeys_nodup : ∀ es : List (Nat × ChunkDesc),
    sortedKeys es = true → (es.map Prod.fst).Nodup := by
  intro es
  induction es with
  | nil => simp
  | cons e rest ih =>
    intro h
    simp only [sortedKeys, Bool.and_eq_true, List.all_eq_true, decide_eq_true_iff] at h
    obtain ⟨h1, h2⟩ := h
    simp only [List.map_cons, List.nodup_cons]
    refine ⟨?_, ih h2⟩
    intro hmem
    obtain ⟨e2, he2, hke⟩ := List.mem_map.mp hmem
    have := h1 e2 he2
    omega

theorem walkLoop_skips {α : Type} (parse : Buf → Except String α) (file : Buf) :
    ∀ (j fuel : Nat) (m : List (Nat × ChunkDesc)) (seen : List (Nat × Nat))
      (index pos : Nat) (out : List (Nat × Nat × α)),
      m ≠ [] →
      (∀ i, index ≤ i → i < index + j → hmLookup m i = none) →
      index + j < 2 ^ 32 →
      walkLoop parse file (j + fuel) ⟨m, seen, index, pos, out⟩
        = walkLoop parse file fuel ⟨m, seen, index + j, pos + j * BLOCKSIZE, out⟩ := by
  intro j
  induction j with
  | zero =>
    intro fuel m seen index pos out _ _ _
    simp
  | succ j ih =>
    intro fuel m seen index pos out hm hnone hlt
    have hstep : walkStep parse file ⟨m, seen, index, pos, out⟩
        = StepRes.next ⟨m, seen, (index + 1) % 2 ^ 32, pos + BLOCKSIZE, out⟩ := by
      cases m with
      | nil => exact absurd rfl hm
      | cons a as =>
        simp only [walkStep]
        rw [hnone index le_rfl (by omega)]
    have hmod : (index + 1) % 2 ^ 32 = index + 1 := Nat.mod_eq_of_lt (by omega)
    have hsplit : j + 1 + fuel = (j + fuel) + 1 := by omega
    rw [hsplit]
    simp only [walkLoop, hstep, hmod]
    rw [ih fuel m seen (index + 1) (pos + BLOCKSIZE) out hm
      (fun i h1 h2 => hnone i (by omega) (by omega)) (by omega)]
    have h1 : index + 1 + j = index + (j + 1) := by omega
    have h2 : pos + BLOCKSIZE + j * BLOCKSIZE = pos + (j + 1) * BLOCKSIZE := by ring
    rw [h1, h2]

theorem walkLoop_run {α : Type} (parse : Buf → Except String α) (file : Buf) :
    ∀ (es m : List (Nat × ChunkDesc)) (seen : List (Nat × Nat)) (index pos : Nat)
      (out : List (Nat × Nat × α)) (fuel : Nat),
      m.Perm es →
      sortedKeys es = true →
      chainOk index es = true →
      (∀ e ∈ es, (e.1 + e.2.len) * BLOCKSIZE ≤ file.size) →
      (∀ e ∈ es, e.1 + e.2.len < 2 ^ 32) →
      (∀ e ∈ es, e.2.x < CHUNKS_PER_REGION ∧ e.2.z < CHUNKS_PER_REGION) →
      (∀ e ∈ es, entryPos e ∉ seen) →
      (es.map entryPos).Nodup →
      (∀ e ∈ es, ∃ t, decode_chunk parse
          (bufSlice file (e.1 * BLOCKSIZE) (e.2.len * BLOCKSIZE)) = ROutcome.ok t) →
      pos = index * BLOCKSIZE →
      walkFuel index es ≤ fuel →
      ∃ l, walkLoop parse file fuel ⟨m, seen, index, pos, out⟩
            = (out ++ l, some (ROutcome.ok ()))
        ∧ l.map emitPos = es.map entryPos := by
  intro es
  induction es with
  | nil =>
    intro m seen index pos out fuel hperm _ _ _ _ _ _ _ _ _ hfuel
    have hm : m = [] := List.perm_nil.mp hperm
    subst hm
    rw [walkFuel] at hfuel
    obtain ⟨f, hf⟩ : ∃ f, fuel = f + 1 := ⟨fuel - 1, by omega⟩
    subst hf
    exact ⟨[], by simp [walkLoop, walkStep], by simp⟩
  | cons e rest ih =>
    obtain ⟨k, d⟩ := e
    intro m seen index pos out fuel hperm hsort hchain hfit h32 hxz hseen hnd hdec hpos hfuel
    simp only [sortedKeys, Bool.and_eq_true, List.all_eq_true, decide_eq_true_iff] at hsort
    obtain ⟨hsA, hsB⟩ := hsort
    simp only [chainOk, Bool.and_eq_true, decide_eq_true_iff] at hchain
    obtain ⟨hik, hchain2⟩ := hchain
    have hknd : (((k, d) :: rest).map Prod.fst).Nodup := by
      refine sortedKeys_nodup _ ?_
      simp only [sortedKeys, Bool.and_eq_true, List.all_eq_true, decide_eq_true_iff]
      exact ⟨hsA, hsB⟩
    have hmknd : (m.map Prod.fst).Nodup := ((hperm.map Prod.fst).nodup_iff).mpr hknd
    have hmne : m ≠ [] := by
      intro h
      subst h
      have := List.perm_nil.mp hperm.symm
      cases this
    rw [walkFuel] at hfuel
    dsimp only at hfuel
    have hk32 : k < 2 ^ 32 := by
      have := h32 (k, d) (List.mem_cons_self _ _)
      simp only at this
      omega
    have hnone : ∀ i, index ≤ i → i < index + (k - index) → hmLookup m i = none := by
      intro i h1 h2
      rw [hmLookup_eq_none_iff]
      intro hmem
      have hies : i ∈ (((k, d) :: rest).map Prod.fst) := (hperm.map Prod.fst).mem_iff.mp hmem
      simp only [List.map_cons, List.mem_cons] at hies
      rcases hies with h3 | h3
      · omega
      · obtain ⟨e2, he2, hke⟩ := List.mem_map.mp h3
        have := hsA e2 he2
        omega
    rw [show fuel = (k - index) + (fuel - (k - index)) from by omega]
    rw [walkLoop_skips parse file (k - index) (fuel - (k - index)) m seen index pos out
      hmne hnone (by omega)]
    have hidx : index + (k - index) = k := by omega
    have hposk : pos + (k - index) * BLOCKSIZE = k * BLOCKSIZE := by
      rw [hpos, ← Nat.add_mul, hidx]
    rw [hidx, hposk]
    obtain ⟨f2, hf2⟩ : ∃ f2, fuel - (k - index) = f2 + 1 := ⟨fuel - (k - index) - 1, by omega⟩
    rw [hf2]
    obtain ⟨t, ht⟩ := hdec (k, d) (List.mem_cons_self _ _)
    have hlk : hmLookup m k = some d :=
      mem_hmLookup hmknd (hperm.mem_iff.mpr (List.mem_cons_self _ _))
    have hx := hxz (k, d) (List.mem_cons_self _ _)
    simp only at hx
    have hsn := hseen (k, d) (List.mem_cons_self _ _)
    simp only [entryPos] at hsn
    have hstep : walkStep parse file ⟨m, seen, k, k * BLOCKSIZE, out⟩
        = StepRes.next ⟨hmErase m k, (d.x, d.z) :: seen, (k + d.len) % 2 ^ 32,
            k * BLOCKSIZE + d.len * BLOCKSIZE, out ++ [(d.x, d.z, t)]⟩ := by
      cases m with
      | nil => exact absurd rfl hmne
      | cons a as =>
        simp only [walkStep]
        rw [hlk]
        dsimp only
        rw [if_neg (by omega), if_neg hsn]
        rw [if_pos (by
          rw [← Nat.add_mul]
          exact hfit (k, d) (List.mem_cons_self _ _))]
        rw [ht]
    simp only [walkLoop, hstep]
    have hmod : (k + d.len) % 2 ^ 32 = k + d.len := by
      refine Nat.mod_eq_of_lt ?_
      have := h32 (k, d) (List.mem_cons_self _ _)
      simpa using this
    have hposn : k * BLOCKSIZE + d.len * BLOCKSIZE = (k + d.len) * BLOCKSIZE := by
      rw [Nat.add_mul]
    rw [hmod, hposn]
    have hperm2 : (hmErase m k).Perm rest := by
      have h1 : (hmErase m k).Perm (((k, d) :: rest).filter (fun p => p.1 != k)) :=
        hperm.filter _
      have h2 : (((k, d) :: rest).filter (fun p => p.1 != k)) = rest := by
        rw [List.filter_cons_of_neg (by simp)]
        rw [List.filter_eq_self]
        intro e2 he2
        have := hsA e2 he2
        simp only [bne_iff_ne, ne_eq]
        omega
      rwa [h2] at h1
    have hndrest : (rest.map entryPos).Nodup := by
      simp only [List.map_cons, List.nodup_cons] at hnd
      exact hnd.2
    have hhd : (d.x, d.z) ∉ rest.map entryPos := by
      simp only [List.map_cons, List.nodup_cons, entryPos] at hnd
      exact hnd.1
    obtain ⟨l2, hrun, hmap⟩ := ih (hmErase m k) ((d.x, d.z) :: seen) (k + d.len)
      ((k + d.len) * BLOCKSIZE) (out ++ [(d.x, d.z, t)]) f2 hperm2 hsB hchain2
      (fun e2 he2 => hfit e2 (List.mem_cons_of_mem _ he2))
      (fun e2 he2 => h32 e2 (List.mem_cons_of_mem _ he2))
      (fun e2 he2 => hxz e2 (List.mem_cons_of_mem _ he2))
      (by
        intro e2 he2
        simp only [List.mem_cons]
        intro hor
        rcases hor with h3 | h3
        · exact hhd (h3 ▸ List.mem_map_of_mem entryPos he2)
        · exact hseen e2 (List.mem_cons_of_mem _ he2) h3)
      hndrest
      (fun e2 he2 => hdec e2 (List.mem_cons_of_mem _ he2))
      rfl
      (by omega)
    refine ⟨(d.x, d.z, t) :: l2, ?_, ?_⟩
    · rw [hrun]
      have : (out ++ [(d.x, d.z, t)]) ++ l2 = out ++ ((d.x, d.z, t) :: l2) := by simp
      rw [this]
    · simp only [List.map_cons, hmap, emitPos, entryPos]

theorem walkLoop_dup {α : Type} (parse : Buf → Except String α) (file : Buf)
    (k2 : Nat) (d2 : ChunkDesc) (es2 : List (Nat × ChunkDesc)) :
    ∀ (es1 m : List (Nat × ChunkDesc)) (seen : List (Nat × Nat)) (index pos : Nat)
      (out : List (Nat × Nat × α)) (fuel : Nat),
      m.Perm (es1 ++ (k2, d2) :: es2) →
      sortedKeys (es1 ++ (k2, d2) :: es2) = true →
      chainOk index (es1 ++ [(k2, d2)]) = true →
      (∀ e ∈ es1, (e.1 + e.2.len) * BLOCKSIZE ≤ file.size) →
      (∀ e ∈ es1, e.1 + e.2.len < 2 ^ 32) →
      k2 < 2 ^ 32 →
      (∀ e ∈ es1, e.2.x < CHUNKS_PER_REGION ∧ e.2.z < CHUNKS_PER_REGION) →
      (d2.x < CHUNKS_PER_REGION ∧ d2.z < CHUNKS_PER_REGION) →
      (∀ e ∈ es1, entryPos e ∉ seen) →
      (es1.map entryPos).Nodup →
      ((d2.x, d2.z) ∈ es1.map entryPos ∨ (d2.x, d2.z) ∈ seen) →
      (∀ e ∈ es1, ∃ t, decode_chunk parse
          (bufSlice file (e.1 * BLOCKSIZE) (e.2.len * BLOCKSIZE)) = ROutcome.ok t) →
      pos = index * BLOCKSIZE →
      walkFuel index (es1 ++ [(k2, d2)]) ≤ fuel →
      ∃ l, walkLoop parse file fuel ⟨m, seen, index, pos, out⟩
            = (out ++ l, some (ROutcome.err "Duplicate chunk"))
        ∧ l.map emitPos = es1.map entryPos := by
  intro es1
  induction es1 with
  | nil =>
    intro m seen index pos out fuel hperm hsort hchain _ _ hk232 _ hxz2 _ _ hdup _ hpos hfuel
    simp only [List.nil_append] at hperm hsort hchain hfuel
    simp only [List.map_nil, List.not_mem_nil, false_or] at hdup
    simp only [chainOk, Bool.and_eq_true, decide_eq_true_iff] at hchain
    obtain ⟨hik, _⟩ := hchain
    simp only [sortedKeys, Bool.and_eq_true, List.all_eq_true, decide_eq_true_iff] at hsort
    obtain ⟨hsA, hsB⟩ := hsort
    have hknd : (((k2, d2) :: es2).map Prod.fst).Nodup := by
      refine sortedKeys_nodup _ ?_
      simp only [sortedKeys, Bool.and_eq_true, List.all_eq_true, decide_eq_true_iff]
      exact ⟨hsA, hsB⟩
    have hmknd : (m.map Prod.fst).Nodup := ((hperm.map Prod.fst).nodup_iff).mpr hknd
    have hmne : m ≠ [] := by
      intro h
      subst h
      have := List.perm_nil.mp hperm.symm
      cases this
    have hnone : ∀ i, index ≤ i → i < index + (k2 - index) → hmLookup m i = none := by
      intro i h1 h2
      rw [hmLookup_eq_none_iff]
      intro hmem
      have hies : i ∈ (((k2, d2) :: es2).map Prod.fst) := (hperm.map Prod.fst).mem_iff.mp hmem
      simp only [List.map_cons, List.mem_cons] at hies
      rcases hies with h3 | h3
      · omega
      · obtain ⟨e2, he2, hke⟩ := List.mem_map.mp h3
        have := hsA e2 he2
        omega
    rw [walkFuel, walkFuel] at hfuel
    dsimp only at hfuel
    rw [show fuel = (k2 - index) + (fuel - (k2 - index)) from by omega]
    rw [walkLoop_skips parse file (k2 - index) (fuel - (k2 - index)) m seen index pos out
      hmne hnone (by omega)]
    have hidx : index + (k2 - index) = k2 := by omega
    have hposk : pos + (k2 - index) * BLOCKSIZE = k2 * BLOCKSIZE := by
      rw [hpos, ← Nat.add_mul, hidx]
    rw [hidx, hposk]
    obtain ⟨f2, hf2⟩ : ∃ f2, fuel - (k2 - index) = f2 + 1 := ⟨fuel - (k2 - index) - 1, by omega⟩
    rw [hf2]
    have hlk : hmLookup m k2 = some d2 :=
      mem_hmLookup hmknd (hperm.mem_iff.mpr (List.mem_cons_self _ _))
    have hstep : walkStep parse file ⟨m, seen, k2, k2 * BLOCKSIZE, out⟩
        = StepRes.done out (ROutcome.err "Duplicate chunk") := by
      cases m with
      | nil => exact absurd rfl hmne
      | cons a as =>
        simp only [walkStep]
        rw [hlk]
        dsimp only
        rw [if_neg (by omega), if_pos hdup]
    simp only [walkLoop, hstep]
    exact ⟨[], by simp, by simp⟩
  | cons e rest ih =>
    obtain ⟨k, d⟩ := e
    intro m seen index pos out fuel hperm hsort hchain hfit h32 hk232 hxz hxz2 hseen hnd
      hdup hdec hpos hfuel
    rw [List.cons_append] at hperm hsort
    rw [List.cons_append] at hchain hfuel
    simp only [sortedKeys, Bool.and_eq_true, List.all_eq_true, decide_eq_true_iff] at hsort
    obtain ⟨hsA, hsB⟩ := hsort
    simp only [chainOk, Bool.and_eq_true, decide_eq_true_iff] at hchain
    obtain ⟨hik, hchain2⟩ := hchain
    have hknd : (((k, d) :: (rest ++ (k2, d2) :: es2)).map Prod.fst).Nodup := by
      refine sortedKeys_nodup _ ?_
      simp only [sortedKeys, Bool.and_eq_true, List.all_eq_true, decide_eq_true_iff]
      exact ⟨hsA, hsB⟩
    have hmknd : (m.map Prod.fst).Nodup := ((hperm.map Prod.fst).nodup_iff).mpr hknd
    have hmne : m ≠ [] := by
      intro h
      subst h
      have := List.perm_nil.mp hperm.symm
      cases this
    rw [walkFuel] at hfuel
    dsimp only at hfuel
    have hnone : ∀ i, index ≤ i → i < index + (k - index) → hmLookup m i = none := by
      intro i h1 h2
      rw [hmLookup_eq_none_iff]
      intro hmem
      have hies : i ∈ (((k, d) :: (rest ++ (k2, d2) :: es2)).map Prod.fst) :=
        (hperm.map Prod.fst).mem_iff.mp hmem
      simp only [List.map_cons, List.mem_cons] at hies
      rcases hies with h3 | h3
      · omega
      · obtain ⟨e2, he2, hke⟩ := List.mem_map.mp h3
        have := hsA e2 he2
        omega
    rw [show fuel = (k - index) + (fuel - (k - index)) from by omega]
    rw [walkLoop_skips parse file (k - index) (fuel - (k - index)) m seen index pos out
      hmne hnone (by
        have := h32 (k, d) (List.mem_cons_self _ _)
        simp only at this
        omega)]
    have hidx : index + (k - index) = k := by omega
    have hposk : pos + (k - index) * BLOCKSIZE = k * BLOCKSIZE := by
      rw [hpos, ← Nat.add_mul, hidx]
    rw [hidx, hposk]
    obtain ⟨f2, hf2⟩ : ∃ f2, fuel - (k - index) = f2 + 1 := ⟨fuel - (k - index) - 1, by omega⟩
    rw [hf2]
    obtain ⟨t, ht⟩ := hdec (k, d) (List.mem_cons_self _ _)
    have hlk : hmLookup m k = some d :=
      mem_hmLookup hmknd (hperm.mem_iff.mpr (List.mem_cons_self _ _))
    have hx := hxz (k, d) (List.mem_cons_self _ _)
    simp only at hx
    have hsn := hseen (k, d) (List.mem_cons_self _ _)
    simp only [entryPos] at hsn
    have hstep : walkStep parse file ⟨m, seen, k, k * BLOCKSIZE, out⟩
        = StepRes.next ⟨hmErase m k, (d.x, d.z) :: seen, (k + d.len) % 2 ^ 32,
            k * BLOCKSIZE + d.len * BLOCKSIZE, out ++ [(d.x, d.z, t)]⟩ := by
      cases m with
      | nil => exact absurd rfl hmne
      | cons a as =>
        simp only [walkStep]
        rw [hlk]
        dsimp only
        rw [if_neg (by omega), if_neg hsn]
        rw [if_pos (by
          rw [← Nat.add_mul]
          exact hfit (k, d) (List.mem_cons_self _ _))]
        rw [ht]
    simp only [walkLoop, hstep]
    have hmod : (k + d.len) % 2 ^ 32 = k + d.len := by
      refine Nat.mod_eq_of_lt ?_
      have := h32 (k, d) (List.mem_cons_self _ _)
      simpa using this
    have hposn : k * BLOCKSIZE + d.len * BLOCKSIZE = (k + d.len) * BLOCKSIZE := by
      rw [Nat.add_mul]
    rw [hmod, hposn]
    have hperm2 : (hmErase m k).Perm (rest ++ (k2, d2) :: es2) := by
      have h1 : (hmErase m k).Perm
          (((k, d) :: (rest ++ (k2, d2) :: es2)).filter (fun p => p.1 != k)) :=
        hperm.filter _
      have h2 : (((k, d) :: (rest ++ (k2, d2) :: es2)).filter (fun p => p.1 != k))
          = rest ++ (k2, d2) :: es2 := by
        rw [List.filter_cons_of_neg (by simp)]
        rw [List.filter_eq_self]
        intro e2 he2
        have := hsA e2 he2
        simp only [bne_iff_ne, ne_eq]
        omega
      rwa [h2] at h1
    have hndrest : (rest.map entryPos).Nodup := by
      simp only [List.map_cons, List.nodup_cons] at hnd
      exact hnd.2
    have hhd : (d.x, d.z) ∉ rest.map entryPos := by
      simp only [List.map_cons, List.nodup_cons, entryPos] at hnd
      exact hnd.1
    obtain ⟨l2, hrun, hmap⟩ := ih (hmErase m k) ((d.x, d.z) :: seen) (k + d.len)
      ((k + d.len) * BLOCKSIZE) (out ++ [(d.x, d.z, t)]) f2 hperm2 hsB hchain2
      (fun e2 he2 => hfit e2 (List.mem_cons_of_mem _ he2))
      (fun e2 he2 => h32 e2 (List.mem_cons_of_mem _ he2))
      hk232
      (fun e2 he2 => hxz e2 (List.mem_cons_of_mem _ he2))
      hxz2
      (by
        intro e2 he2
        simp only [List.mem_cons]
        intro hor
        rcases hor with h3 | h3
        · exact hhd (h3 ▸ List.mem_map_of_mem entryPos he2)
        · exact hseen e2 (List.mem_cons_of_mem _ he2) h3)
      hndrest
      (by
        simp only [List.map_cons, List.mem_cons, entryPos] at hdup
        rcases hdup with (h3 | h3) | h3
        · exact Or.inr (h3 ▸ List.mem_cons_self _ _)
        · exact Or.inl h3
        · exact Or.inr (List.mem_cons_of_mem _ h3))
      (fun e2 he2 => hdec e2 (List.mem_cons_of_mem _ he2))
      rfl
      (by omega)
    refine ⟨(d.x, d.z, t) :: l2, ?_, ?_⟩
    · rw [hrun]
      have : (out ++ [(d.x, d.z, t)]) ++ l2 = out ++ ((d.x, d.z, t) :: l2) := by simp
      rw [this]
    · simp only [List.map_cons, hmap, emitPos, entryPos]

theorem walkLoop_succ_next {α : Type} (parse : Buf → Except String α) (file : Buf)
    (fuel : Nat) (s s2 : WalkSt α) (h : walkStep parse file s = StepRes.next s2) :
    walkLoop parse file (fuel + 1) s = walkLoop parse file fuel s2 := by
  simp only [walkLoop, h]

/-- A single unreached table entry below the current index keeps the
walker seeking one sector at a time; within the whole remaining 32-bit
index range (no wraparound) the loop never exits. -/
theorem walkLoop_stuck {α : Type} (parse : Buf → Except String α) (file : Buf)
    (k : Nat) (d : ChunkDesc) :
    ∀ (fuel index pos : Nat) (seen : List (Nat × Nat)) (out : List (Nat × Nat × α)),
      k < index → index + fuel ≤ 2 ^ 32 →
      walkLoop parse file fuel ⟨[(k, d)], seen, index, pos, out⟩ = (out, none) := by
  intro fuel
  induction fuel with
  | zero => intros; rfl
  | succ f ih =>
    intro index pos seen out hk hle
    have hl : hmLookup [(k, d)] index = none := by
      simp only [hmLookup]
      rw [if_neg (by omega)]
    have hstep : walkStep parse file ⟨[(k, d)], seen, index, pos, out⟩
        = StepRes.next ⟨[(k, d)], seen, (index + 1) % 2 ^ 32, pos + BLOCKSIZE, out⟩ := by
      simp only [walkStep]
      rw [hl]
    rw [walkLoop_succ_next parse file f _ _ hstep]
    by_cases hw : index + 1 < 2 ^ 32
    · rw [Nat.mod_eq_of_lt hw]
      exact ih (index + 1) (pos + BLOCKSIZE) seen out (by omega) (by omega)
    · have hf : f = 0 := by omega
      subst hf
      rfl

theorem walkFuel_le (q : Nat) : ∀ (es : List (Nat × ChunkDesc)) (index : Nat),
    chainOk index es = true →
    (∀ e ∈ es, e.1 + e.2.len ≤ q) →
    index ≤ q →
    walkFuel index es ≤ (q - index) + es.length + 1 := by
  intro es
  induction es with
  | nil =>
    intro index _ _ _
    rw [walkFuel]
    omega
  | cons e rest ih =>
    obtain ⟨k, d⟩ := e
    intro index hchain hbound hiq
    simp only [chainOk, Bool.and_eq_true, decide_eq_true_iff] at hchain
    obtain ⟨hik, hchain2⟩ := hchain
    have hkq : k + d.len ≤ q := by
      have := hbound (k, d) (List.mem_cons_self _ _)
      simpa using this
    have := ih (k + d.len) hchain2
      (fun e2 he2 => hbound e2 (List.mem_cons_of_mem _ he2)) hkq
    rw [walkFuel]
    simp only [List.length_cons]
    omega

/-! ## Slot order and offset collisions -/

theorem slotList_eq_map_range :
    slotList = (List.range 1024).map (fun i => (i % 32, i / 32)) := by decide

theorem headerEntries_mem_shape (hdr : Nat → Nat) (e : Nat × ChunkDesc)
    (he : e ∈ headerEntries hdr) :
    ∃ s, s ∈ slotList ∧ slotOffset hdr s ≠ 0 ∧ e = (slotOffset hdr s, slotDesc hdr s) := by
  obtain ⟨s, hs, hse⟩ := List.mem_filterMap.mp he
  rw [entryOfSlot] at hse
  by_cases h : slotOffset hdr s = 0
  · rw [if_pos h] at hse
    cases hse
  · rw [if_neg h] at hse
    exact ⟨s, hs, h, (Option.some.inj hse).symm⟩

theorem parse_header_mem (hdr : Nat → Nat) (e : Nat × ChunkDesc)
    (he : e ∈ parse_header hdr) : e ∈ headerEntries hdr := by
  rcases mem_foldl_insertSlot hdr slotList [] e he with h | h
  · cases h
  · exact h

theorem parse_header_pos_nodup (hdr : Nat → Nat) :
    ((parse_header hdr).map entryPos).Nodup := by
  refine List.Nodup.map_on ?_ (List.Nodup.of_map Prod.fst (keys_parse_header_nodup hdr))
  intro e1 he1 e2 he2 hpos
  obtain ⟨s1, _, _, hs1⟩ := headerEntries_mem_shape hdr e1 (parse_header_mem hdr e1 he1)
  obtain ⟨s2, _, _, hs2⟩ := headerEntries_mem_shape hdr e2 (parse_header_mem hdr e2 he2)
  obtain ⟨a1, b1⟩ := s1
  obtain ⟨a2, b2⟩ := s2
  subst hs1 hs2
  simp only [entryPos, slotDesc, Prod.mk.injEq] at hpos
  obtain ⟨h1, h2⟩ := hpos
  subst h1 h2
  rfl

theorem parse_header_lookup_last (hdr : Nat → Nat) (x z o : Nat)
    (hx : x < CHUNKS_PER_REGION) (hz : z < CHUNKS_PER_REGION)
    (ho : slotOffset hdr (x, z) = o) (ho0 : o ≠ 0)
    (hlater : ∀ s ∈ slotList.drop (32 * z + x + 1), slotOffset hdr s ≠ o) :
    hmLookup (parse_header hdr) o = some (slotDesc hdr (x, z)) := by
  have hc : CHUNKS_PER_REGION = 32 := rfl
  rw [hc] at hx hz
  have hn : 32 * z + x < slotList.length := by
    rw [slotList_length]
    omega
  have hget : slotList[32 * z + x] = (x, z) := by
    simp only [slotList_eq_map_range, List.getElem_map, List.getElem_range]
    simp only [Prod.mk.injEq]
    omega
  have hsplit : slotList
      = slotList.take (32 * z + x) ++ (x, z) :: slotList.drop (32 * z + x + 1) := by
    conv_lhs => rw [← List.take_append_drop (32 * z + x) slotList]
    rw [List.drop_eq_getElem_cons hn, hget]
  rw [parse_header]
  conv_lhs => rw [hsplit]
  rw [List.foldl_append, List.foldl_cons]
  have hins : insertSlot hdr (List.foldl (insertSlot hdr) [] (slotList.take (32 * z + x))) (x, z)
      = hmInsert (List.foldl (insertSlot hdr) [] (slotList.take (32 * z + x))) o
          (slotDesc hdr (x, z)) := by
    rw [insertSlot, ho, if_neg ho0]
  rw [hins]
  rw [hmLookup_foldl_insertSlot_no_key hdr _ _ o hlater]
  exact hmLookup_hmInsert_self _ _ _

theorem slotList_drop_offset_ne (hdr : Nat → Nat) (xA zA xB zB o : Nat)
    (hA : xA < CHUNKS_PER_REGION ∧ zA < CHUNKS_PER_REGION)
    (hB : xB < CHUNKS_PER_REGION ∧ zB < CHUNKS_PER_REGION)
    (horder : zA < zB ∨ (zA = zB ∧ xA < xB))
    (hothers : ∀ s ∈ slotList, s ≠ (xA, zA) → s ≠ (xB, zB) → slotOffset hdr s ≠ o) :
    ∀ s ∈ slotList.drop (32 * zB + xB + 1), slotOffset hdr s ≠ o := by
  have hc : CHUNKS_PER_REGION = 32 := rfl
  rw [hc] at hA hB
  intro s hs
  have hmem : s ∈ slotList := (List.drop_sublist _ _).subset hs
  obtain ⟨j, hj, hsj⟩ := List.mem_iff_getElem.mp hs
  have hjlen : 32 * zB + xB + 1 + j < 1024 := by
    rw [List.length_drop, slotList_length] at hj
    omega
  have hse : s = ((32 * zB + xB + 1 + j) % 32, (32 * zB + xB + 1 + j) / 32) := by
    rw [← hsj, List.getElem_drop]
    simp only [slotList_eq_map_range, List.getElem_map, List.getElem_range]
  refine hothers s hmem ?_ ?_
  · rw [hse]
    simp only [ne_eq, Prod.mk.injEq, not_and]
    intro h1 h2
    omega
  · rw [hse]
    simp only [ne_eq, Prod.mk.injEq, not_and]
    intro h1 h2
    omega

/-- C6: `block_color` panics (returns `none`) with no biome exactly for
blocks whose `needs_biome` is true; with a biome it never panics. In
particular blocks carrying only birch or spruce tints succeed without a
biome. -/
theorem c6_block_color_panic_iff_needs_biome (block : BlockType) (depth : ℚ) :
    (block_color block none depth = none ↔ needs_biome block = true)
    ∧ (∀ b : Biome, (block_color block (some b) depth).isSome = true) := by
  obtain ⟨g, f, bi, s, w, c⟩ := block
  refine ⟨?_, ?_⟩
  · cases g <;> cases f <;> cases w <;> cases bi <;> cases s <;>
      simp [block_color, tint, tintConst, needs_biome]
  · intro b
    cases g <;> cases f <;> cases w <;> cases bi <;> cases s <;>
      simp [block_color, tint, tintConst]

/-- C7: for a biome with no explicit grass override and no grass modifier,
the grass color is the spec's ramp formula with the grass constant matrix;
for a biome with no explicit foliage override, the foliage color is the
ramp formula with the foliage constant matrix. -/
theorem c7_ramp_formula (b : Biome) (depth : ℚ) (hg : b.grass_color = none)
    (hgm : b.grass_color_modifier = none) (hf : b.foliage_color = none) :
    grass_color b depth
      = rampFormulaSpec GRASS_COLORS.1 GRASS_COLORS.2.1 GRASS_COLORS.2.2
          b.temp b.downfall depth
    ∧ foliage_color b depth
      = rampFormulaSpec FOLIAGE_COLORS.1 FOLIAGE_COLORS.2.1 FOLIAGE_COLORS.2.2
          b.temp b.downfall depth := by
  constructor
  · simp [grass_color, hg, hgm, color_from_params, rampFormulaSpec]
  · simp [foliage_color, hf, color_from_params, rampFormulaSpec]

/-- Witness for C7 at a concrete biome and depth. -/
theorem c7_ramp_formula_witness :
    ((⟨4/5, 2/5, none, none, none, none⟩ : Biome).grass_color = none
      ∧ (⟨4/5, 2/5, none, none, none, none⟩ : Biome).grass_color_modifier = none
      ∧ (⟨4/5, 2/5, none, none, none, none⟩ : Biome).foliage_color = none)
    ∧ (grass_color ⟨4/5, 2/5, none, none, none, none⟩ 70
        = rampFormulaSpec GRASS_COLORS.1 GRASS_COLORS.2.1 GRASS_COLORS.2.2 (4/5) (2/5) 70
      ∧ foliage_color ⟨4/5, 2/5, none, none, none, none⟩ 70
        = rampFormulaSpec FOLIAGE_COLORS.1 FOLIAGE_COLORS.2.1 FOLIAGE_COLORS.2.2
            (4/5) (2/5) 70) :=
  ⟨⟨rfl, rfl, rfl⟩, c7_ramp_formula ⟨4/5, 2/5, none, none, none, none⟩ 70 rfl rfl rfl⟩

/-- C8: any biome whose grass color modifier is `Swamp` resolves its grass
color to the fixed swamp constant, at every depth and for every
temperature, downfall and override color. -/
theorem c8_swamp_grass_constant (b : Biome) (depth : ℚ)
    (h : b.grass_color_modifier = some BiomeGrassColorModifier.Swamp) :
    grass_color b depth = SWAMP_GRASS_COLOR := by
  simp [grass_color, h]

/-- Witness for C8 at a concrete biome (with an explicit grass override
color present) and depth. -/
theorem c8_swamp_grass_constant_witness :
    (⟨9/10, 1/10, some ⟨10, 20, 30⟩, none, none,
        some BiomeGrassColorModifier.Swamp⟩ : Biome).grass_color_modifier
      = some BiomeGrassColorModifier.Swamp
    ∧ grass_color
        ⟨9/10, 1/10, some ⟨10, 20, 30⟩, none, none,
          some BiomeGrassColorModifier.Swamp⟩ 42 = SWAMP_GRASS_COLOR :=
  ⟨rfl, c8_swamp_grass_constant _ 42 rfl⟩

/-- C9: `block_color` equals the composited pre-shading color multiplied
componentwise by `0.5 + 0.005 × depth`; that factor is exactly `0.5` at
depth 0 and exactly `1` at depth 100 (float arithmetic modelled as exact
rationals; the concrete `f32` evaluation also yields these exact values). -/
theorem c9_elevation_shading (block : BlockType) (biome : Option Biome) (depth : ℚ) :
    block_color block biome depth
      = Option.map (fun c => smul (1/2 + (1/200) * depth) c)
          (block_color_unshaded block biome depth)
    ∧ (1/2 + (1/200) * (0 : ℚ)) = 1/2
    ∧ (1/2 + (1/200) * (100 : ℚ)) = 1 := by
  refine ⟨?_, by norm_num, by norm_num⟩
  have h : block_color block biome depth
      = Option.bind (block_color_unshaded block biome depth)
          (fun c => some (smul (1/2 + (1/200) * depth) c)) := rfl
  rw [h]
  cases block_color_unshaded block biome depth <;> rfl

/-- C10: whenever the length prefix is present and covered by the buffer
and a format tag byte exists, any tag value other than 2 makes
`decode_chunk` fail with the unknown-format error, for every external
decoder. -/
theorem c10_unknown_format_tag {α : Type} (parse : Buf → Except String α) (buf : Buf)
    (h4 : 4 ≤ buf.size) (hcov : be32 buf ≤ buf.size - 4) (h1 : 1 ≤ be32 buf)
    (htag : buf.byte 4 ≠ 2) :
    decode_chunk parse buf = ROutcome.err "Unknown chunk format" := by
  simp only [decode_chunk]
  rw [if_neg (by omega), if_neg (by omega), if_neg (by omega), if_neg htag]

/-- Witness for C10: an 8-byte buffer with declared length 1 and format
tag 7 is rejected as unknown format. -/
theorem c10_unknown_format_tag_witness :
    (4 ≤ (⟨fun i => if i = 3 then 1 else if i = 4 then 7 else 0, 8⟩ : Buf).size
      ∧ be32 ⟨fun i => if i = 3 then 1 else if i = 4 then 7 else 0, 8⟩
          ≤ (⟨fun i => if i = 3 then 1 else if i = 4 then 7 else 0, 8⟩ : Buf).size - 4
      ∧ 1 ≤ be32 ⟨fun i => if i = 3 then 1 else if i = 4 then 7 else 0, 8⟩
      ∧ (⟨fun i => if i = 3 then 1 else if i = 4 then 7 else 0, 8⟩ : Buf).byte 4 ≠ 2)
    ∧ decode_chunk (fun _ => Except.ok (0 : Nat))
        ⟨fun i => if i = 3 then 1 else if i = 4 then 7 else 0, 8⟩
        = ROutcome.err "Unknown chunk format" :=
  ⟨⟨by decide, by decide, by decide, by decide⟩,
    c10_unknown_format_tag (fun _ => Except.ok (0 : Nat)) _ (by decide) (by decide)
      (by decide) (by decide)⟩

/-- C1: for every valid region file — nonzero header offsets pairwise
distinct (the sorted entry enumeration `es` below), reserved blocks
non-overlapping (`chainOk`, the sorted form of non-overlap), blocks lying
inside the file and every payload decoding successfully — and any
sufficient iteration fuel, `foreach_chunk` returns success and the
callback trace hits exactly the positions of the nonzero-offset location
table entries: none missing, none repeated. -/
theorem c1_walker_hits_each_entry_once {α : Type} (parse : Buf → Except String α)
    (file : Buf) (es : List (Nat × ChunkDesc)) (fuel : Nat)
    (hsize : BLOCKSIZE ≤ file.size)
    (hperm : es.Perm (headerEntries file.byte))
    (hsort : sortedKeys es = true)
    (hchain : chainOk 1 es = true)
    (hfit : ∀ e ∈ es, (e.1 + e.2.len) * BLOCKSIZE ≤ file.size)
    (h32 : ∀ e ∈ es, e.1 + e.2.len < 2 ^ 32)
    (hdec : ∀ e ∈ es, ∃ t, decode_chunk parse
        (bufSlice file (e.1 * BLOCKSIZE) (e.2.len * BLOCKSIZE)) = ROutcome.ok t)
    (hfuel : walkFuel 1 es ≤ fuel) :
    ∃ l, foreach_chunk parse file fuel = (l, some (ROutcome.ok ()))
      ∧ (l.map emitPos).Perm ((headerEntries file.byte).map entryPos)
      ∧ (l.map emitPos).Nodup := by
  have hhnd : ((headerEntries file.byte).map Prod.fst).Nodup :=
    ((hperm.map Prod.fst).nodup_iff).mp (sortedKeys_nodup es hsort)
  have hmperm : (parse_header file.byte).Perm es := by
    rw [parse_header_eq_reverse file.byte hhnd]
    exact (List.reverse_perm _).trans hperm.symm
  have hxz : ∀ e ∈ es, e.2.x < CHUNKS_PER_REGION ∧ e.2.z < CHUNKS_PER_REGION :=
    fun e he => headerEntries_pos_lt file.byte e (hperm.mem_iff.mp he)
  have hnd : (es.map entryPos).Nodup :=
    ((hperm.map entryPos).nodup_iff).mpr (headerEntries_pos_nodup file.byte)
  obtain ⟨l, hrun, hmap⟩ := walkLoop_run parse file es (parse_header file.byte) [] 1
    BLOCKSIZE [] fuel hmperm hsort hchain hfit h32 hxz (by simp) hnd hdec
    (by rw [Nat.one_mul]) hfuel
  refine ⟨l, ?_, ?_, ?_⟩
  · rw [foreach_chunk, if_neg (by omega)]
    simpa using hrun
  · rw [hmap]
    exact hperm.map entryPos
  · rw [hmap]
    exact hnd

/-- Witness for C1: the concrete two-chunk file decodes with exactly the
two table positions emitted once each. -/
theorem c1_walker_hits_each_entry_once_witness :
    (BLOCKSIZE ≤ exampleFile.size
      ∧ ([((2 : Nat), (⟨0, 0, 1⟩ : ChunkDesc)), (3, ⟨1, 0, 1⟩)]).Perm
          (headerEntries exampleFile.byte)
      ∧ sortedKeys [((2 : Nat), (⟨0, 0, 1⟩ : ChunkDesc)), (3, ⟨1, 0, 1⟩)] = true
      ∧ chainOk 1 [((2 : Nat), (⟨0, 0, 1⟩ : ChunkDesc)), (3, ⟨1, 0, 1⟩)] = true)
    ∧ (∃ l, foreach_chunk parseTriv exampleFile 10 = (l, some (ROutcome.ok ()))
      ∧ (l.map emitPos).Perm ((headerEntries exampleFile.byte).map entryPos)
      ∧ (l.map emitPos).Nodup) :=
  ⟨⟨by decide,
    by rw [show headerEntries exampleFile.byte
        = [((2 : Nat), (⟨0, 0, 1⟩ : ChunkDesc)), (3, ⟨1, 0, 1⟩)] from by decide],
    by decide, by decide⟩,
   c1_walker_hits_each_entry_once parseTriv exampleFile
    [((2 : Nat), (⟨0, 0, 1⟩ : ChunkDesc)), (3, ⟨1, 0, 1⟩)] 10
    (by decide)
    (by rw [show headerEntries exampleFile.byte
        = [((2 : Nat), (⟨0, 0, 1⟩ : ChunkDesc)), (3, ⟨1, 0, 1⟩)] from by decide])
    (by decide) (by decide) (by decide) (by decide)
    (by
      intro e he
      rcases List.mem_cons.mp he with h | h
      · exact ⟨0, by rw [h]; decide⟩
      · rcases List.mem_cons.mp h with h2 | h2
        · exact ⟨0, by rw [h2]; decide⟩
        · cases h2)
    (by decide)⟩

/-- C4: if the chunk table holds two entries at different offsets carrying
the same (x,z) position — the sorted enumeration being `es1` (containing
the first claim on the position), then the second claim `(k2, d2)`, then
any later entries `es2` — the walk fails with the "Duplicate chunk" error
when the second claim is reached, and the callback trace is exactly the
entries before the detection: no callback (for either chunk or any later
one) fires after it. The walk is started on the table `m` directly, as
`foreach_chunk` does after parsing the header; a slot-indexed location
table cannot itself encode two entries with one position, so the property
is stated for the walker loop over an arbitrary table. -/
theorem c4_duplicate_position_aborts {α : Type} (parse : Buf → Except String α)
    (file : Buf) (es1 : List (Nat × ChunkDesc)) (k2 : Nat) (d2 : ChunkDesc)
    (es2 m : List (Nat × ChunkDesc)) (fuel : Nat)
    (hperm : m.Perm (es1 ++ (k2, d2) :: es2))
    (hsort : sortedKeys (es1 ++ (k2, d2) :: es2) = true)
    (hchain : chainOk 1 (es1 ++ [(k2, d2)]) = true)
    (hfit : ∀ e ∈ es1, (e.1 + e.2.len) * BLOCKSIZE ≤ file.size)
    (h32 : ∀ e ∈ es1, e.1 + e.2.len < 2 ^ 32)
    (hk232 : k2 < 2 ^ 32)
    (hxz : ∀ e ∈ es1, e.2.x < CHUNKS_PER_REGION ∧ e.2.z < CHUNKS_PER_REGION)
    (hxz2 : d2.x < CHUNKS_PER_REGION ∧ d2.z < CHUNKS_PER_REGION)
    (hnd : (es1.map entryPos).Nodup)
    (hdup : (d2.x, d2.z) ∈ es1.map entryPos)
    (hdec : ∀ e ∈ es1, ∃ t, decode_chunk parse
        (bufSlice file (e.1 * BLOCKSIZE) (e.2.len * BLOCKSIZE)) = ROutcome.ok t)
    (hfuel : walkFuel 1 (es1 ++ [(k2, d2)]) ≤ fuel) :
    ∃ l, walkLoop parse file fuel ⟨m, [], 1, BLOCKSIZE, []⟩
          = (l, some (ROutcome.err "Duplicate chunk"))
      ∧ l.map emitPos = es1.map entryPos := by
  obtain ⟨l, hrun, hmap⟩ := walkLoop_dup parse file k2 d2 es2 es1 m [] 1 BLOCKSIZE [] fuel
    hperm hsort hchain hfit h32 hk232 hxz hxz2 (by simp) hnd (Or.inl hdup) hdec
    (by rw [Nat.one_mul]) hfuel
  exact ⟨l, by simpa using hrun, hmap⟩

/-- Witness for C4: a table claiming position (5,7) at offsets 2 and 3
over the concrete file aborts with the duplicate error after exactly one
callback. -/
theorem c4_duplicate_position_aborts_witness :
    (([((2 : Nat), (⟨5, 7, 1⟩ : ChunkDesc)), (3, ⟨5, 7, 1⟩)]).Perm
        ([((2 : Nat), (⟨5, 7, 1⟩ : ChunkDesc))] ++ (3, ⟨5, 7, 1⟩) :: [])
      ∧ sortedKeys ([((2 : Nat), (⟨5, 7, 1⟩ : ChunkDesc))] ++ (3, ⟨5, 7, 1⟩) :: []) = true
      ∧ chainOk 1 ([((2 : Nat), (⟨5, 7, 1⟩ : ChunkDesc))] ++ [(3, ⟨5, 7, 1⟩)]) = true
      ∧ ((5 : Nat), (7 : Nat)) ∈ ([((2 : Nat), (⟨5, 7, 1⟩ : ChunkDesc))]).map entryPos)
    ∧ ∃ l, walkLoop parseTriv exampleFile 10
          ⟨[((2 : Nat), (⟨5, 7, 1⟩ : ChunkDesc)), (3, ⟨5, 7, 1⟩)], [], 1, BLOCKSIZE, []⟩
          = (l, some (ROutcome.err "Duplicate chunk"))
      ∧ l.map emitPos = ([((2 : Nat), (⟨5, 7, 1⟩ : ChunkDesc))]).map entryPos :=
  ⟨⟨by decide, by decide, by decide, by decide⟩,
   c4_duplicate_position_aborts parseTriv exampleFile
    [((2 : Nat), (⟨5, 7, 1⟩ : ChunkDesc))] 3 ⟨5, 7, 1⟩ []
    [((2 : Nat), (⟨5, 7, 1⟩ : ChunkDesc)), (3, ⟨5, 7, 1⟩)] 10
    (by decide) (by decide) (by decide) (by decide) (by decide) (by decide)
    (by decide) (by decide) (by decide) (by decide)
    (by
      intro e he
      rcases List.mem_cons.mp he with h | h
      · exact ⟨0, by rw [h]; decide⟩
      · cases h)
    (by decide)⟩

/-- C3 counterexample: the decode cost of `foreach_chunk` is not bounded
by the file size. On the concrete 5-sector (20480-byte) malformed file
whose second table entry (offset 3) lies inside the first entry's reserved
block, the walker decodes the first chunk, jumps to sector 4, and then
keeps seeking one sector per iteration: after `2 ^ 32 - 5` loop iterations
(about four billion, versus 5 sectors of file) it still has not exited
(`none`), because the unreached entry keeps the table non-empty until the
32-bit sector index wraps around. -/
theorem c3_cost_not_bounded_counterexample :
    overlapFile.size = 20480
    ∧ foreach_chunk parseTriv overlapFile (2 ^ 32 - 5) = ([(0, 0, 0)], none) := by
  refine ⟨rfl, ?_⟩
  rw [foreach_chunk, if_neg (by decide)]
  rw [show parse_header overlapFile.byte
    = [(3, ⟨1, 0, 1⟩), (2, ⟨0, 0, 2⟩)] from by decide]
  have hs1 : walkStep parseTriv overlapFile
      ⟨[(3, ⟨1, 0, 1⟩), (2, ⟨0, 0, 2⟩)], [], 1, BLOCKSIZE, []⟩
      = StepRes.next ⟨[(3, ⟨1, 0, 1⟩), (2, ⟨0, 0, 2⟩)], [], 2, 8192, []⟩ := by decide
  have hs2 : walkStep parseTriv overlapFile
      ⟨[(3, ⟨1, 0, 1⟩), (2, ⟨0, 0, 2⟩)], [], 2, 8192, []⟩
      = StepRes.next ⟨[(3, ⟨1, 0, 1⟩)], [(0, 0)], 4, 16384, [(0, 0, 0)]⟩ := by decide
  rw [show (2 ^ 32 - 5 : Nat) = (2 ^ 32 - 6) + 1 from by norm_num]
  rw [walkLoop_succ_next parseTriv overlapFile _ _ _ hs1]
  rw [show (2 ^ 32 - 6 : Nat) = (2 ^ 32 - 7) + 1 from by norm_num]
  rw [walkLoop_succ_next parseTriv overlapFile _ _ _ hs2]
  exact walkLoop_stuck parseTriv overlapFile 3 ⟨1, 0, 1⟩ (2 ^ 32 - 7) 4 16384
    [(0, 0)] [(0, 0, 0)] (by norm_num) (by norm_num)

/-- C3 amended: no single walker operation blocks (each read is bounded by
the fixed sector and chunk sizes) and, for region files whose table
entries are actually reached by the sector walk — sorted entries forming a
non-overlapping chain inside the file, payloads decoding — the total
decode cost is linear in the file size: `file.size / BLOCKSIZE + 1025`
loop iterations always suffice for `foreach_chunk` to exit successfully.
For malformed files whose entries the walk jumps over, the cost is bounded
only by the 32-bit sector index space, not by the file size (see the
counterexample). -/
theorem c3_cost_linear_for_reachable_layouts {α : Type} (parse : Buf → Except String α)
    (file : Buf) (es : List (Nat × ChunkDesc))
    (hsize : BLOCKSIZE ≤ file.size)
    (hperm : es.Perm (headerEntries file.byte))
    (hsort : sortedKeys es = true)
    (hchain : chainOk 1 es = true)
    (hfit : ∀ e ∈ es, (e.1 + e.2.len) * BLOCKSIZE ≤ file.size)
    (h32 : ∀ e ∈ es, e.1 + e.2.len < 2 ^ 32)
    (hdec : ∀ e ∈ es, ∃ t, decode_chunk parse
        (bufSlice file (e.1 * BLOCKSIZE) (e.2.len * BLOCKSIZE)) = ROutcome.ok t) :
    ∃ l, foreach_chunk parse file (file.size / BLOCKSIZE + 1025)
      = (l, some (ROutcome.ok ())) := by
  have hhnd : ((headerEntries file.byte).map Prod.fst).Nodup :=
    ((hperm.map Prod.fst).nodup_iff).mp (sortedKeys_nodup es hsort)
  have hmperm : (parse_header file.byte).Perm es := by
    rw [parse_header_eq_reverse file.byte hhnd]
    exact (List.reverse_perm _).trans hperm.symm
  have hxz : ∀ e ∈ es, e.2.x < CHUNKS_PER_REGION ∧ e.2.z < CHUNKS_PER_REGION :=
    fun e he => headerEntries_pos_lt file.byte e (hperm.mem_iff.mp he)
  have hnd : (es.map entryPos).Nodup :=
    ((hperm.map entryPos).nodup_iff).mpr (headerEntries_pos_nodup file.byte)
  have hlen : es.length ≤ 1024 := by
    rw [hperm.length_eq]
    exact headerEntries_length_le file.byte
  have hq1 : 1 ≤ file.size / BLOCKSIZE := by
    rw [Nat.le_div_iff_mul_le (by rw [BLOCKSIZE]; omega)]
    omega
  have hbound : ∀ e ∈ es, e.1 + e.2.len ≤ file.size / BLOCKSIZE := by
    intro e he
    rw [Nat.le_div_iff_mul_le (by rw [BLOCKSIZE]; omega)]
    exact hfit e he
  have hfuel : walkFuel 1 es ≤ file.size / BLOCKSIZE + 1025 := by
    have := walkFuel_le (file.size / BLOCKSIZE) es 1 hchain hbound hq1
    omega
  obtain ⟨l, hrun, _⟩ := walkLoop_run parse file es (parse_header file.byte) [] 1
    BLOCKSIZE [] (file.size / BLOCKSIZE + 1025) hmperm hsort hchain hfit h32 hxz
    (by simp) hnd hdec (by rw [Nat.one_mul]) hfuel
  refine ⟨l, ?_⟩
  rw [foreach_chunk, if_neg (by omega)]
  simpa using hrun

/-- Witness for the amended C3 on the concrete two-chunk file: fuel
`16384 / 4096 + 1025` suffices. -/
theorem c3_cost_linear_for_reachable_layouts_witness :
    (BLOCKSIZE ≤ exampleFile.size
      ∧ chainOk 1 [((2 : Nat), (⟨0, 0, 1⟩ : ChunkDesc)), (3, ⟨1, 0, 1⟩)] = true)
    ∧ ∃ l, foreach_chunk parseTriv exampleFile (exampleFile.size / BLOCKSIZE + 1025)
        = (l, some (ROutcome.ok ())) :=
  ⟨⟨by decide, by decide⟩,
   c3_cost_linear_for_reachable_layouts parseTriv exampleFile
    [((2 : Nat), (⟨0, 0, 1⟩ : ChunkDesc)), (3, ⟨1, 0, 1⟩)]
    (by decide)
    (by rw [show headerEntries exampleFile.byte
        = [((2 : Nat), (⟨0, 0, 1⟩ : ChunkDesc)), (3, ⟨1, 0, 1⟩)] from by decide])
    (by decide) (by decide) (by decide) (by decide)
    (by
      intro e he
      rcases List.mem_cons.mp he with h | h
      · exact ⟨0, by rw [h]; decide⟩
      · rcases List.mem_cons.mp h with h2 | h2
        · exact ⟨0, by rw [h2]; decide⟩
        · cases h2)⟩

/-- C5: when two header slots carry the same nonzero offset `o` — the slot
`(xA, zA)` iterated earlier (z-major, x-minor) and the slot `(xB, zB)`
iterated later — and no other slot carries `o`, `parse_header` silently
keeps only the later slot's entry for `o` (no error is raised: parsing
always returns a table), and a successful walk of the file decodes the
later slot's position while the earlier slot's position is never emitted. -/
theorem c5_offset_collision_last_slot_wins {α : Type} (parse : Buf → Except String α)
    (file : Buf) (xA zA xB zB o : Nat) (es : List (Nat × ChunkDesc)) (fuel : Nat)
    (hA : xA < CHUNKS_PER_REGION ∧ zA < CHUNKS_PER_REGION)
    (hB : xB < CHUNKS_PER_REGION ∧ zB < CHUNKS_PER_REGION)
    (horder : zA < zB ∨ (zA = zB ∧ xA < xB))
    (hoA : slotOffset file.byte (xA, zA) = o)
    (hoB : slotOffset file.byte (xB, zB) = o)
    (ho0 : o ≠ 0)
    (hothers : ∀ s ∈ slotList, s ≠ (xA, zA) → s ≠ (xB, zB) → slotOffset file.byte s ≠ o)
    (hsize : BLOCKSIZE ≤ file.size)
    (hperm : es.Perm (parse_header file.byte))
    (hsort : sortedKeys es = true)
    (hchain : chainOk 1 es = true)
    (hfit : ∀ e ∈ es, (e.1 + e.2.len) * BLOCKSIZE ≤ file.size)
    (h32 : ∀ e ∈ es, e.1 + e.2.len < 2 ^ 32)
    (hdec : ∀ e ∈ es, ∃ t, decode_chunk parse
        (bufSlice file (e.1 * BLOCKSIZE) (e.2.len * BLOCKSIZE)) = ROutcome.ok t)
    (hfuel : walkFuel 1 es ≤ fuel) :
    hmLookup (parse_header file.byte) o = some (slotDesc file.byte (xB, zB))
    ∧ ∃ l, foreach_chunk parse file fuel = (l, some (ROutcome.ok ()))
      ∧ (xB, zB) ∈ l.map emitPos
      ∧ (xA, zA) ∉ l.map emitPos := by
  have hlater := slotList_drop_offset_ne file.byte xA zA xB zB o hA hB horder hothers
  have hlook := parse_header_lookup_last file.byte xB zB o hB.1 hB.2 hoB ho0 hlater
  refine ⟨hlook, ?_⟩
  have hxz : ∀ e ∈ es, e.2.x < CHUNKS_PER_REGION ∧ e.2.z < CHUNKS_PER_REGION :=
    fun e he => headerEntries_pos_lt file.byte e
      (parse_header_mem file.byte e (hperm.mem_iff.mp he))
  have hnd : (es.map entryPos).Nodup :=
    ((hperm.map entryPos).nodup_iff).mpr (parse_header_pos_nodup file.byte)
  obtain ⟨l, hrun, hmap⟩ := walkLoop_run parse file es (parse_header file.byte) [] 1
    BLOCKSIZE [] fuel hperm.symm hsort hchain hfit h32 hxz (by simp) hnd hdec
    (by rw [Nat.one_mul]) hfuel
  refine ⟨l, ?_, ?_, ?_⟩
  · rw [foreach_chunk, if_neg (by omega)]
    simpa using hrun
  · rw [hmap]
    have hmem : (o, slotDesc file.byte (xB, zB)) ∈ parse_header file.byte :=
      hmLookup_mem hlook
    have hes : (o, slotDesc file.byte (xB, zB)) ∈ es := hperm.mem_iff.mpr hmem
    have := List.mem_map_of_mem entryPos hes
    simpa [entryPos, slotDesc] using this
  · rw [hmap]
    intro hcon
    obtain ⟨e, he, hpe⟩ := List.mem_map.mp hcon
    have hph : e ∈ parse_header file.byte := hperm.mem_iff.mp he
    obtain ⟨s, hsmem, hsnz, hse⟩ :=
      headerEntries_mem_shape file.byte e (parse_header_mem file.byte e hph)
    obtain ⟨sx, sz⟩ := s
    subst hse
    simp only [entryPos, slotDesc, Prod.mk.injEq] at hpe
    obtain ⟨h1, h2⟩ := hpe
    subst h1 h2
    rw [hoA] at hph
    have hlkA := mem_hmLookup (keys_parse_header_nodup file.byte) hph
    rw [hlook] at hlkA
    have heq := Option.some.inj hlkA
    simp only [slotDesc, ChunkDesc.mk.injEq] at heq
    obtain ⟨hq1, hq2, _⟩ := heq
    omega

/-- Witness for C5: the concrete collision file (slots (0,0) and (1,0)
both at offset 2) keeps the later slot (1,0); the walk emits (1,0) and
never (0,0). -/
theorem c5_offset_collision_last_slot_wins_witness :
    (slotOffset collideFile.byte (0, 0) = 2
      ∧ slotOffset collideFile.byte (1, 0) = 2)
    ∧ (hmLookup (parse_header collideFile.byte) 2 = some (slotDesc collideFile.byte (1, 0))
      ∧ ∃ l, foreach_chunk parseTriv collideFile 10 = (l, some (ROutcome.ok ()))
        ∧ ((1 : Nat), (0 : Nat)) ∈ l.map emitPos
        ∧ ((0 : Nat), (0 : Nat)) ∉ l.map emitPos) :=
  ⟨⟨by decide, by decide⟩,
   c5_offset_collision_last_slot_wins parseTriv collideFile 0 0 1 0 2
    [((2 : Nat), (⟨1, 0, 1⟩ : ChunkDesc))] 10
    (by decide) (by decide) (Or.inr ⟨rfl, by decide⟩) (by decide) (by decide) (by decide)
    (by
      have hall : slotList.all (fun s =>
          (slotOffset collideFile.byte s == 0)
            || (s == ((0 : Nat), (0 : Nat))) || (s == ((1 : Nat), (0 : Nat)))) = true := by
        decide
      intro s hs h1 h2
      have hthis := List.all_eq_true.mp hall s hs
      simp only [Bool.or_eq_true, beq_iff_eq] at hthis
      rcases hthis with (h0 | hA) | hB
      · intro hc
        omega
      · exact absurd hA h1
      · exact absurd hB h2)
    (by decide)
    (by rw [show parse_header collideFile.byte
        = [((2 : Nat), (⟨1, 0, 1⟩ : ChunkDesc))] from by decide])
    (by decide) (by decide) (by decide) (by decide)
    (by
      intro e he
      rcases List.mem_cons.mp he with h | h
      · exact ⟨0, by rw [h]; decide⟩
      · cases h)
    (by decide)⟩

/-- C2 exhibit: `decode_chunk` does not fail recoverably on truncation, it
panics. An empty payload buffer (a table entry with sector count 0) hits
the `buf.split_at(4)` abort instead of the intended
"Failed to decode chunk size" error, and a buffer whose declared length
exceeds the bytes available (here 4096 declared vs 4092 available) hits
the `&buf[..len]` abort instead of a truncation error. -/
theorem c2_decode_truncation_panics :
    decode_chunk (fun _ => Except.ok (0 : Nat)) ⟨fun _ => 0, 0⟩
      = ROutcome.panic "slice split_at mid > len"
    ∧ decode_chunk (fun _ => Except.ok (0 : Nat)) ⟨fun i => if i = 2 then 16 else 0, 4096⟩
      = ROutcome.panic "slice end index out of range" := by
  constructor
  · decide
  · decide

end MinedMap
